import Mathlib

/-!
Verification of the dependency-graph / critical-path engine of the
Codia tracker app against its specification.

The repository's graph logic lives in three places:
  * the SQL function get_tasks_by_execution_status
    (supabase-migrations/003-fix-status-enum-confusion.sql), which filters
    tasks by the derived execution status READY / BLOCKED / WAITING;
  * the React component CustomGanttComplete.jsx, whose closures
    getRelatedTaskIds and criticalPathIds implement the bidirectional
    closure walk and the memoized longest-path computation;
  * the client-side validation layer (validateDependencies).

This file gives a shallow embedding of those computations and proves or
refutes the frozen specification claims about them.  JavaScript numbers
holding task ids are modelled as Int, estimated hours as Option Int
(null modelled as none; the snapshot data stores whole hours, and on them
JavaScript's Math.ceil(h / 8) coincides with the integer ceiling division
used below, which the bridge lemma relates to the real-valued ceiling of
the specification); the free-text dependency tokens of the source are
modelled after parseInt normalisation, i.e. as integer ids.
-/

namespace Codia

/-- Task lifecycle status, per the CHECK constraint of migration 003:
status IN ('PENDING', 'IN_PROGRESS', 'DONE'). -/
inductive Status where
  | PENDING
  | IN_PROGRESS
  | DONE
deriving DecidableEq, Repr

open Status

/-- A row of the tasks table / an element of the tasks array fetched by the
Gantt component.  depends_on (called blocking_dependencies on the JS side)
is nullable, hence Option; estimated_hours is a nullable numeric carrying
whole hours in this model.  order_index drives the ORDER BY of the SQL
helper. -/
structure Task where
  id : Int
  status : Status
  estimated_hours : Option Int
  depends_on : Option (List Int)
  order_index : Int
deriving DecidableEq, Repr

/-- The list of dependency ids of a task, after the JS normalisation
(typeof d === 'string' ? parseInt(d.split(':')[0]) : d); a null
blocking_dependencies contributes no ids. -/
def depIds (t : Task) : List Int :=
  match t.depends_on with
  | none => []
  | some l => l

/-- dep.id = ANY(t.depends_on) — true when the candidate dependency row's id
occurs in the task's depends_on array (false when the array is NULL). -/
def depMatches (t dep : Task) : Bool :=
  match t.depends_on with
  | none => false
  | some arr => arr.contains dep.id

/-- The parameter of get_tasks_by_execution_status. -/
inductive ExecParam where
  | READY
  | BLOCKED
  | WAITING
deriving DecidableEq, Repr

/-- The CASE expression in the WHERE clause of get_tasks_by_execution_status
(migration 003, lines 158-182), deciding whether task t belongs to the
requested execution-status class.  In PostgreSQL array_length(arr, 1) IS
NULL holds exactly for a NULL or empty array, and EXISTS over
dep.id = ANY(NULL) is false. -/
def executionStatusCase (tasks : List Task) (p : ExecParam) (t : Task) : Bool :=
  match p with
  | .READY =>
      decide (t.status ≠ DONE) &&
      (decide (t.depends_on = none) || decide (t.depends_on = some []) ||
        ! tasks.any (fun dep => depMatches t dep && decide (dep.status ≠ DONE)))
  | .BLOCKED =>
      decide (t.status ≠ DONE) &&
      decide (t.depends_on ≠ none) &&
      decide (depIds t ≠ []) &&
      tasks.any (fun dep => depMatches t dep && decide (dep.status ≠ DONE))
  | .WAITING =>
      decide (t.status ≠ DONE) &&
      decide (t.depends_on ≠ none) &&
      tasks.any (fun dep => depMatches t dep && decide (dep.status = IN_PROGRESS))

/-- One insertion step of the order_index sort. -/
def insertByOrder (t : Task) : List Task → List Task
  | [] => [t]
  | u :: us =>
    if t.order_index ≤ u.order_index then t :: u :: us else u :: insertByOrder t us

/-- ORDER BY t.order_index, modelled as a stable insertion sort (the SQL
ordering permutes the filtered rows and never changes membership). -/
def sortByOrderIndex : List Task → List Task
  | [] => []
  | t :: ts => insertByOrder t (sortByOrderIndex ts)

/-- get_tasks_by_execution_status: the rows of tasks satisfying the CASE
filter, ordered by order_index. -/
def getTasksByExecutionStatus (tasks : List Task) (p : ExecParam) : List Task :=
  sortByOrderIndex (tasks.filter (executionStatusCase tasks p))

/-- The record computed per node by getLongestPath: the ids along the best
downstream path from the node and its total duration in work-days. -/
structure PathInfo where
  path : List Int
  duration : Int
deriving DecidableEq, Repr

/-- The accumulator step shared by both selections in criticalPathIds:
if (subPath.duration > longest.duration) longest = subPath — a strict
comparison, so on equal durations the earlier candidate is kept. -/
def chooseLonger (acc s : PathInfo) : PathInfo :=
  if s.duration > acc.duration then s else acc

/-- task.estimated_hours ? Math.max(1, Math.ceil(task.estimated_hours / 8)) : 1.
A null or zero (falsy) estimate yields 1; otherwise the ceiling of h / 8,
computed here by the kernel-evaluable integer form -(-h / 8), which the
lemma intCeilDiv8_eq identifies with the real-valued ceiling. -/
def taskDuration (t : Task) : Int :=
  match t.estimated_hours with
  | none => 1
  | some h => if h = 0 then 1 else max 1 (-(-h / 8))

/-- taskMap.get(taskId): the Map built from tasks keeps the last entry for a
duplicated key, hence the reversed find. -/
def mapGet (tasks : List Task) (taskId : Int) : Option Task :=
  tasks.reverse.find? (fun t => t.id == taskId)

/-- The downstream filter inside getLongestPath: all tasks whose (parsed)
blocking_dependencies include taskId.  A null dependency array is skipped
by the JS guard and contributes nothing here either. -/
def downstreamTasks (tasks : List Task) (taskId : Int) : List Task :=
  tasks.filter (fun t => (depIds t).contains taskId)

/-- The body of getLongestPath, abstracted over the recursive call (rec is
the longest-path function for the sub-searches): look the task up, take
its duration, and if it has downstream tasks extend the longest of their
paths, where the longest is selected by the strict fold chooseLonger
starting from the record with path [] and duration 0. -/
def glpStep (tasks : List Task) (rec : Int → PathInfo) (taskId : Int) : PathInfo :=
  match mapGet tasks taskId with
  | none => ⟨[], 0⟩
  | some task =>
    let duration := taskDuration task
    match downstreamTasks tasks taskId with
    | [] => ⟨[taskId], duration⟩
    | d :: ds =>
      let longestSub :=
        ((d :: ds).map (fun dt => rec dt.id)).foldl chooseLonger ⟨[], 0⟩
      ⟨taskId :: longestSub.path, duration + longestSub.duration⟩

/-- The memoized recursion getLongestPath of criticalPathIds.  Memoization
is a pure caching device in the source and is dropped here; the JS
recursion has no fuel and terminates exactly on inputs where the
downstream depth is bounded, so the embedding takes explicit fuel and the
top level passes tasks.length, which suffices for every acyclic snapshot
(see the fuel lemmas below). -/
def getLongestPath (tasks : List Task) : Nat → Int → PathInfo
  | 0 => fun _ => ⟨[], 0⟩
  | fuel + 1 => glpStep tasks (getLongestPath tasks fuel)

/-- !t.blocking_dependencies || t.blocking_dependencies.length === 0. -/
def isRoot (t : Task) : Bool :=
  match t.depends_on with
  | none => true
  | some l => l.isEmpty

/-- The root tasks of the snapshot (empty or null dependency list). -/
def rootTasks (tasks : List Task) : List Task :=
  tasks.filter isRoot

/-- The accumulation over root tasks in criticalPathIds, starting from
the sentinel { path: [], duration: -1 }. -/
def criticalPath (tasks : List Task) : PathInfo :=
  (rootTasks tasks).foldl
    (fun acc t => chooseLonger acc (getLongestPath tasks tasks.length t.id))
    ⟨[], -1⟩

/-- The ids highlighted as the critical path (the JS result is the Set of
these ids; for an empty snapshot the early return and the sentinel both
yield no ids). -/
def criticalPathIds (tasks : List Task) : List Int :=
  (criticalPath tasks).path

/-- tasks.find(t => t.id === id) — Array.find takes the first match. -/
def findById (tasks : List Task) (taskId : Int) : Option Task :=
  tasks.find? (fun t => t.id == taskId)

/-- Neighbour function of the checkDownstream walk: the ids of all tasks
whose dependency array contains the given id, in task-list order. -/
def downNbrs (tasks : List Task) (taskId : Int) : List Int :=
  (downstreamTasks tasks taskId).map Task.id

/-- Neighbour function of the checkUpstream walk: the (parsed) dependency
ids of the first task with the given id, if any. -/
def upNbrs (tasks : List Task) (taskId : Int) : List Int :=
  match findById tasks taskId with
  | none => []
  | some t => depIds t

/-- Processing of one neighbour list: the source's forEach body
(if (!related.has(n)) { related.add(n); check(n); }), abstracted over the
recursive walk rec that is applied to each newly added id. -/
def dfsList (nbrs : Int → List Int) (rec : Int → List Int → List Int) :
    List Int → List Int → List Int
  | [], rel => rel
  | n :: rest, rel =>
    if n ∈ rel then dfsList nbrs rec rest rel
    else dfsList nbrs rec rest (rec n (n :: rel))

/-- The shared skeleton of checkDownstream and checkUpstream: visit the
neighbours of id in order, adding each unvisited one to the related set
and recursing from it; both source closures mutate one growing Set, here
threaded as the accumulator rel (new ids consed in front).  The source
recursion carries no fuel; the fuel below is the embedding's termination
device and the caller passes a bound that the fuel lemmas prove ample. -/
def dfs (nbrs : Int → List Int) : Nat → Int → List Int → List Int
  | 0 => fun _ rel => rel
  | fuel + 1 => fun taskId rel => dfsList nbrs (dfs nbrs fuel) (nbrs taskId) rel

/-- An upper bound on the number of ids either walk can ever add: every
addition is a task id (downstream) or a dependency id (upstream). -/
def relFuel (tasks : List Task) : Nat :=
  tasks.length + (tasks.map (fun t => (depIds t).length)).sum + 1

/-- getRelatedTaskIds of CustomGanttComplete.jsx with explicit fuel:
the falsy guard (if (!taskId) return new Set()), then the downstream walk
followed by the upstream walk over the same related set seeded with the
focus id. -/
def getRelatedTaskIdsFuel (tasks : List Task) (fuel : Nat) (taskId : Option Int) :
    List Int :=
  match taskId with
  | none => []
  | some tid =>
    if tid = 0 then []
    else
      dfs (upNbrs tasks) fuel tid (dfs (downNbrs tasks) fuel tid [tid])

/-- getRelatedTaskIds at the canonical ample fuel (the JS recursion is
unbounded; relFuel is provably enough, see the fuel lemmas). -/
def getRelatedTaskIds (tasks : List Task) (taskId : Option Int) : List Int :=
  getRelatedTaskIdsFuel tasks (relFuel tasks) taskId

/-- validateDependencies from the client validation layer.  A null
dependencies value is accepted; a task id that is truthy (nonzero) and
occurs in its own dependency array is rejected; the element-type check
(typeof dep === 'number') is identically true for the integer-typed
dependency lists of this embedding. -/
def validateDependencies (dependencies : Option (List Int)) (taskId : Int) : Bool :=
  match dependencies with
  | none => true
  | some deps =>
      if taskId ≠ 0 && deps.contains taskId then false
      else deps.all (fun _ => true)

/-! ### Graph-theoretic notions used to state the claims -/

/-- Sum of the durations of a list of tasks. -/
def taskDurSum (p : List Task) : Int :=
  (p.map taskDuration).sum

/-- Sum of the durations of the tasks designated by a list of ids, looked
up the way getLongestPath looks tasks up (ids without a task contribute
nothing). -/
def pathDurationSum (tasks : List Task) (ids : List Int) : Int :=
  (ids.map (fun i =>
    match mapGet tasks i with
    | some t => taskDuration t
    | none => 0)).sum

/-- One downstream (blocks) edge between ids: b is the id of a snapshot
task whose dependency list contains a. -/
def NStep (tasks : List Task) (a b : Int) : Prop :=
  b ∈ downNbrs tasks a

/-- The dependency graph has no cycle: no id reaches itself through a
nonempty sequence of downstream edges. -/
def Acyclic (tasks : List Task) : Prop :=
  ∀ a : Int, ¬ Relation.TransGen (NStep tasks) a a

/-- All task ids of the snapshot are distinct. -/
def uniqueIds (tasks : List Task) : Prop :=
  (tasks.map Task.id).Nodup

/-- Every dependency id of every task designates some task of the
snapshot. -/
def depsClosed (tasks : List Task) : Prop :=
  ∀ t ∈ tasks, ∀ d ∈ depIds t, ∃ u ∈ tasks, u.id = d

/-- A downstream chain of tasks starting at t: each element is a snapshot
task, and each successive task's dependency list contains the id of the
task before it (the path direction of the critical-path search). -/
inductive DownChain (tasks : List Task) : Task → List Task → Prop where
  | single (t : Task) : t ∈ tasks → DownChain tasks t [t]
  | cons (t u : Task) (p : List Task) :
      t ∈ tasks → t.id ∈ depIds u → DownChain tasks u (u :: p) →
      DownChain tasks t (t :: u :: p)

/-- One upstream edge between ids: b is among the dependency ids of the
(first) task whose id is a, as followed by checkUpstream. -/
def UStep (tasks : List Task) (a b : Int) : Prop :=
  b ∈ upNbrs tasks a

/-- A chain of ids reachable from a by successive neighbour steps (the
ids visited along one branch of either walk of getRelatedTaskIds). -/
inductive NChain (nbrs : Int → List Int) : Int → List Int → Prop where
  | nil (a : Int) : NChain nbrs a []
  | cons (a b : Int) (l : List Int) :
      b ∈ nbrs a → NChain nbrs b l → NChain nbrs a (b :: l)

/-- Every id either walk of getRelatedTaskIds can ever add: the task ids
(downstream walk) together with all dependency ids (upstream walk). -/
def idUniverse (tasks : List Task) : Finset Int :=
  ((tasks.map Task.id) ++ (tasks.map depIds).flatten).toFinset

/-! ### Concrete snapshots used by the claim theorems -/

/-- Task 3 is PENDING with one PENDING dependency (1) and one IN_PROGRESS
dependency (2). -/
def exC1 : List Task :=
  [⟨1, PENDING, none, some [], 1⟩,
   ⟨2, IN_PROGRESS, none, some [], 2⟩,
   ⟨3, PENDING, none, some [1, 2], 3⟩]

/-- A pure two-cycle: 1 depends on 2 and 2 depends on 1. -/
def exC3 : List Task :=
  [⟨1, PENDING, none, some [2], 1⟩,
   ⟨2, PENDING, none, some [1], 2⟩]

/-- The three-task example of the specification: task 1 DONE with no
estimate, task 2 with 16 hours depending on 1, task 3 with 8 hours
depending on 2. -/
def exC4 : List Task :=
  [⟨1, DONE, none, some [], 1⟩,
   ⟨2, PENDING, some 16, some [1], 2⟩,
   ⟨3, PENDING, some 8, some [2], 3⟩]

/-- A root (id 1) with two equal-duration successors listed with the higher
id (3) before the lower id (2). -/
def exC5 : List Task :=
  [⟨1, PENDING, none, some [], 1⟩,
   ⟨3, PENDING, none, some [1], 2⟩,
   ⟨2, PENDING, none, some [1], 3⟩]

/-- Task 2 references dependency id 99, which no task in the snapshot has. -/
def exC7 : List Task :=
  [⟨1, PENDING, none, some [], 1⟩,
   ⟨2, PENDING, none, some [99], 2⟩]

/-- An acyclic snapshot containing a task whose id is 0, on which task 1
depends. -/
def exC8 : List Task :=
  [⟨0, PENDING, none, some [], 1⟩,
   ⟨1, PENDING, none, some [0], 2⟩]

/-- An acyclic chain 1 <- 2 <- 3 (3 depends on 2 depends on 1), used to
instantiate hypotheses of the universally quantified theorems. -/
def exChain : List Task :=
  [⟨1, PENDING, none, some [], 1⟩,
   ⟨2, IN_PROGRESS, none, some [1], 2⟩,
   ⟨3, PENDING, none, some [1, 2], 3⟩]

/-! ### Characterizations of the SQL execution-status filter -/

lemma depMatches_iff {t dep : Task} :
    depMatches t dep = true ↔ dep.id ∈ depIds t := by
  unfold depMatches depIds
  cases t.depends_on <;> simp

lemma depMatches_ne_none {t dep : Task} (h : depMatches t dep = true) :
    t.depends_on ≠ none := by
  unfold depMatches at h
  cases hd : t.depends_on <;> simp [hd] at h ⊢

lemma depMatches_ne_nil {t dep : Task} (h : depMatches t dep = true) :
    depIds t ≠ [] :=
  List.ne_nil_of_mem (depMatches_iff.mp h)

lemma blocked_case_iff (tasks : List Task) (t : Task) :
    executionStatusCase tasks .BLOCKED t = true ↔
      t.status ≠ DONE ∧ t.depends_on ≠ none ∧ depIds t ≠ [] ∧
      ∃ dep ∈ tasks, depMatches t dep = true ∧ dep.status ≠ DONE := by
  simp [executionStatusCase, List.any_eq_true]
  tauto

lemma waiting_case_iff (tasks : List Task) (t : Task) :
    executionStatusCase tasks .WAITING t = true ↔
      t.status ≠ DONE ∧ t.depends_on ≠ none ∧
      ∃ dep ∈ tasks, depMatches t dep = true ∧ dep.status = IN_PROGRESS := by
  simp [executionStatusCase, List.any_eq_true]
  tauto

lemma ready_case_iff (tasks : List Task) (t : Task) :
    executionStatusCase tasks .READY t = true ↔
      t.status ≠ DONE ∧
      (t.depends_on = none ∨ t.depends_on = some [] ∨
        ∀ dep ∈ tasks, depMatches t dep = true → dep.status = DONE) := by
  simp [executionStatusCase, List.any_eq_true]
  tauto

/-- C1.  The claim is refuted at exC1: task 3 has a PENDING dependency and
an IN_PROGRESS dependency, and the SQL filter puts it in the WAITING class
(the WAITING branch only asks for SOME dependency with status IN_PROGRESS)
as well as in the BLOCKED class, so the classes overlap and the task is
not BLOCKED-and-not-WAITING as claimed. -/
theorem C1_counterexample :
    executionStatusCase exC1 .BLOCKED ⟨3, PENDING, none, some [1, 2], 3⟩ = true ∧
    executionStatusCase exC1 .WAITING ⟨3, PENDING, none, some [1, 2], 3⟩ = true := by
  decide

/-- C1 (amended).  For a non-DONE task with at least one non-DONE
dependency present in the snapshot, the BLOCKED filter always accepts it,
and the WAITING filter accepts it exactly when at least one of its
dependencies has status IN_PROGRESS — regardless of the status of the
other dependencies, so BLOCKED and WAITING overlap rather than being
mutually exclusive. -/
theorem C1_blocked_and_waiting_overlap (tasks : List Task) (t : Task)
    (hstatus : t.status ≠ DONE)
    (hdep : ∃ dep ∈ tasks, depMatches t dep = true ∧ dep.status ≠ DONE) :
    executionStatusCase tasks .BLOCKED t = true ∧
    (executionStatusCase tasks .WAITING t = true ↔
      ∃ dep ∈ tasks, depMatches t dep = true ∧ dep.status = IN_PROGRESS) := by
  obtain ⟨dep, hmem, hmatch, hne⟩ := hdep
  constructor
  · exact (blocked_case_iff tasks t).mpr
      ⟨hstatus, depMatches_ne_none hmatch, depMatches_ne_nil hmatch,
        dep, hmem, hmatch, hne⟩
  · rw [waiting_case_iff]
    constructor
    · rintro ⟨-, -, h⟩
      exact h
    · intro h
      exact ⟨hstatus, depMatches_ne_none hmatch, h⟩

/-- C1 witness: the amended theorem applied to the two-dependency task of
exC1. -/
theorem C1_witness :
    executionStatusCase exC1 .BLOCKED ⟨3, PENDING, none, some [1, 2], 3⟩ = true ∧
    (executionStatusCase exC1 .WAITING ⟨3, PENDING, none, some [1, 2], 3⟩ = true ↔
      ∃ dep ∈ exC1, depMatches ⟨3, PENDING, none, some [1, 2], 3⟩ dep = true ∧
        dep.status = IN_PROGRESS) :=
  C1_blocked_and_waiting_overlap exC1 ⟨3, PENDING, none, some [1, 2], 3⟩
    (by decide)
    ⟨⟨1, PENDING, none, some [], 1⟩, by decide, by decide, by decide⟩

/-- C6.  For every non-DONE task, the READY filter of
get_tasks_by_execution_status accepts it exactly when every task of the
snapshot listed among its dependencies is DONE; in particular a non-DONE
task with an empty dependency list is READY. -/
theorem C6_ready_iff_all_deps_done (tasks : List Task) (t : Task)
    (hstatus : t.status ≠ DONE) :
    (executionStatusCase tasks .READY t = true ↔
      ∀ dep ∈ tasks, depMatches t dep = true → dep.status = DONE) ∧
    (depIds t = [] → executionStatusCase tasks .READY t = true) := by
  constructor
  · rw [ready_case_iff]
    constructor
    · rintro ⟨-, h⟩ dep hmem hmatch
      rcases h with h | h | h
      · exact absurd (depMatches_ne_none hmatch) (by simp [h])
      · exact absurd (depMatches_ne_nil hmatch) (by simp [depIds, h])
      · exact h dep hmem hmatch
    · intro h
      exact ⟨hstatus, Or.inr (Or.inr h)⟩
  · intro hnil
    rw [ready_case_iff]
    refine ⟨hstatus, ?_⟩
    cases hd : t.depends_on with
    | none => exact Or.inl rfl
    | some l =>
      have hl : l = [] := by simpa [depIds, hd] using hnil
      exact Or.inr (Or.inl (by rw [hl]))

/-- C6 witness: the theorem applied to task 3 of exChain (dependencies 1
and 2, not all DONE) — the READY filter rejects it; and to the
empty-dependency PENDING task 1, which it accepts. -/
theorem C6_witness :
    (executionStatusCase exChain .READY ⟨3, PENDING, none, some [1, 2], 3⟩ = true ↔
      ∀ dep ∈ exChain,
        depMatches ⟨3, PENDING, none, some [1, 2], 3⟩ dep = true →
          dep.status = DONE) ∧
    executionStatusCase exChain .READY ⟨1, PENDING, none, some [], 1⟩ = true :=
  ⟨(C6_ready_iff_all_deps_done exChain ⟨3, PENDING, none, some [1, 2], 3⟩
      (by decide)).1,
   (C6_ready_iff_all_deps_done exChain ⟨1, PENDING, none, some [], 1⟩
      (by decide)).2 (by decide)⟩

/-- C3.  Refutation at the two-cycle exC3: neither computation fails — the
snapshot has no CyclicDependencyError anywhere in the code — instead
criticalPath returns the sentinel record (no roots exist, so the loop body
never runs) and get_tasks_by_execution_status happily classifies both
cycle members as BLOCKED. -/
theorem C3_counterexample :
    criticalPath exC3 = ⟨[], -1⟩ ∧
    getTasksByExecutionStatus exC3 .BLOCKED = exC3 := by
  decide

/-- C3 (amended).  On a snapshot in which every task has a nonempty
dependency list (as in any pure dependency cycle) the computations return
ordinary values rather than failing: criticalPath yields the sentinel
(empty id set), and every non-DONE task with a non-DONE dependency --
in particular every member of a cycle of non-DONE tasks -- is classified
BLOCKED by the SQL filter. -/
theorem C3_cycles_return_ordinary_results (tasks : List Task)
    (hnoroot : ∀ t ∈ tasks, isRoot t = false) :
    criticalPath tasks = ⟨[], -1⟩ ∧
    ∀ t ∈ tasks, t.status ≠ DONE →
      (∃ dep ∈ tasks, depMatches t dep = true ∧ dep.status ≠ DONE) →
      executionStatusCase tasks .BLOCKED t = true := by
  constructor
  · unfold criticalPath rootTasks
    rw [List.filter_eq_nil_iff.mpr (by simpa using hnoroot)]
    rfl
  · intro t _ hstatus ⟨dep, hmem, hmatch, hne⟩
    exact (blocked_case_iff tasks t).mpr
      ⟨hstatus, depMatches_ne_none hmatch, depMatches_ne_nil hmatch,
        dep, hmem, hmatch, hne⟩

/-- C3 witness: the amended theorem applied to the two-cycle exC3. -/
theorem C3_witness :
    criticalPath exC3 = ⟨[], -1⟩ ∧
    executionStatusCase exC3 .BLOCKED ⟨1, PENDING, none, some [2], 1⟩ = true :=
  ⟨(C3_cycles_return_ordinary_results exC3 (by decide)).1,
   (C3_cycles_return_ordinary_results exC3 (by decide)).2
      ⟨1, PENDING, none, some [2], 1⟩ (by decide) (by decide)
      ⟨⟨2, PENDING, none, some [1], 2⟩, by decide, by decide, by decide⟩⟩

/-- C7.  Refutation: a dependency id absent from the snapshot is accepted
by validateDependencies and silently ignored by the critical-path
computation, which returns the best-effort path [1] instead of failing
with InvalidGraphError (no such error exists in the code). -/
theorem C7_counterexample :
    validateDependencies (some [99]) 2 = true ∧
    criticalPath exC7 = ⟨[1], 1⟩ := by
  decide

/-- C7 (amended).  validateDependencies rejects (returns false, with a
toast message rather than an InvalidGraphError) exactly a self-dependency
of a truthy (nonzero) task id; any other integer dependency list,
including ids absent from the snapshot, is accepted, and a null list is
accepted. -/
theorem C7_validateDependencies_characterization (deps : List Int) (taskId : Int) :
    (validateDependencies (some deps) taskId = false ↔
      taskId ≠ 0 ∧ taskId ∈ deps) ∧
    validateDependencies none taskId = true := by
  constructor
  · unfold validateDependencies
    by_cases h0 : taskId = 0
    · simp [h0]
    · by_cases hm : taskId ∈ deps
      · simp [h0, hm]
      · simp [h0, hm]
  · rfl

/-! ### The strict-maximum fold shared by both selections of criticalPathIds -/

lemma chooseLonger_left_le (acc s : PathInfo) :
    acc.duration ≤ (chooseLonger acc s).duration := by
  unfold chooseLonger
  split <;> omega

lemma chooseLonger_right_le (acc s : PathInfo) :
    s.duration ≤ (chooseLonger acc s).duration := by
  unfold chooseLonger
  split <;> omega

lemma chooseLonger_eq_or (acc s : PathInfo) :
    chooseLonger acc s = acc ∨ chooseLonger acc s = s := by
  unfold chooseLonger
  split
  · exact Or.inr rfl
  · exact Or.inl rfl

lemma foldl_chooseLonger_init_le (l : List PathInfo) :
    ∀ init : PathInfo, init.duration ≤ (l.foldl chooseLonger init).duration := by
  induction l with
  | nil => intro init; exact le_refl _
  | cons h t ih =>
    intro init
    exact le_trans (chooseLonger_left_le init h) (ih (chooseLonger init h))

lemma foldl_chooseLonger_mem_le (l : List PathInfo) :
    ∀ init x, x ∈ l → x.duration ≤ (l.foldl chooseLonger init).duration := by
  induction l with
  | nil => intro _ x hx; exact absurd hx (List.not_mem_nil x)
  | cons h t ih =>
    intro init x hx
    rcases List.mem_cons.mp hx with rfl | hx'
    · exact le_trans (chooseLonger_right_le init x)
        (foldl_chooseLonger_init_le t (chooseLonger init x))
    · exact ih (chooseLonger init h) x hx'

lemma foldl_chooseLonger_mem_or (l : List PathInfo) :
    ∀ init, l.foldl chooseLonger init = init ∨ l.foldl chooseLonger init ∈ l := by
  induction l with
  | nil => intro init; exact Or.inl rfl
  | cons h t ih =>
    intro init
    rcases ih (chooseLonger init h) with heq | hmem
    · rcases chooseLonger_eq_or init h with hc | hc
      · rw [List.foldl_cons, heq, hc]
        exact Or.inl rfl
      · rw [List.foldl_cons, heq, hc]
        exact Or.inr (List.mem_cons_self h t)
    · exact Or.inr (List.mem_cons_of_mem h hmem)

/-- C5.  Refutation of the lowest-id tie-break: in exC5 the two successors
of root 1 have equal longest-path durations, and the returned critical
path takes the successor with id 3 — the one listed first — rather than
the lowest id 2. -/
theorem C5_counterexample :
    (criticalPath exC5).path = [1, 3] ∧ (criticalPath exC5).path ≠ [1, 2] := by
  decide

/-- C5 (amended).  Both selections of criticalPathIds accumulate with the
strict comparison chooseLonger, so among candidates of equal maximal
duration the one occurring EARLIEST in the candidate list (task-array
order for downstream successors, root-array order for the global choice)
is kept — not the one with the lowest task id: the fold result is either
the initial accumulator (when nothing beats it) or the first list element
that strictly exceeds the initial accumulator and every earlier element,
and that no later element strictly exceeds. -/
theorem C5_fold_keeps_first_maximum (l : List PathInfo) :
    ∀ init : PathInfo,
      (l.foldl chooseLonger init = init ∧ ∀ x ∈ l, x.duration ≤ init.duration) ∨
      ∃ l1 x l2, l = l1 ++ x :: l2 ∧ l.foldl chooseLonger init = x ∧
        init.duration < x.duration ∧ (∀ y ∈ l1, y.duration < x.duration) ∧
        (∀ y ∈ l2, y.duration ≤ x.duration) := by
  induction l with
  | nil =>
    intro init
    exact Or.inl ⟨rfl, by simp⟩
  | cons h t ih =>
    intro init
    by_cases hc : init.duration < h.duration
    · have hstep : chooseLonger init h = h := by
        unfold chooseLonger
        rw [if_pos hc]
      rcases ih h with ⟨heq, hle⟩ | ⟨l1, x, l2, heqL, hres, hlt, hl1, hl2⟩
      · refine Or.inr ⟨[], h, t, by simp, ?_, hc, by simp, hle⟩
        rw [List.foldl_cons, hstep, heq]
      · refine Or.inr ⟨h :: l1, x, l2, by rw [heqL]; rfl, ?_, lt_trans hc hlt, ?_, hl2⟩
        · rw [List.foldl_cons, hstep, hres]
        · intro y hy
          rcases List.mem_cons.mp hy with rfl | hy'
          · exact hlt
          · exact hl1 y hy'
    · push_neg at hc
      have hstep : chooseLonger init h = init := by
        unfold chooseLonger
        rw [if_neg (not_lt.mpr hc)]
      rcases ih init with ⟨heq, hle⟩ | ⟨l1, x, l2, heqL, hres, hlt, hl1, hl2⟩
      · refine Or.inl ⟨by rw [List.foldl_cons, hstep, heq], ?_⟩
        intro y hy
        rcases List.mem_cons.mp hy with rfl | hy'
        · exact hc
        · exact hle y hy'
      · refine Or.inr ⟨h :: l1, x, l2, by rw [heqL]; rfl, ?_, hlt, ?_, hl2⟩
        · rw [List.foldl_cons, hstep, hres]
        · intro y hy
          rcases List.mem_cons.mp hy with rfl | hy'
          · exact lt_of_le_of_lt hc hlt
          · exact hl1 y hy'

/-- The integer form of the ceiling used by taskDuration agrees with the
real-valued ceiling of estimated hours over eight. -/
lemma intCeilDiv8_eq (h : Int) : -(-h / 8) = ⌈(h : Rat) / 8⌉ := by
  have hfl : (-(h : Rat) / 8) = ((-h : Int) : Rat) / ((8 : Nat) : Rat) := by
    push_cast
    ring
  have hfloor : ⌊(-(h : Rat) / 8)⌋ = -h / 8 := by
    rw [hfl, Rat.floor_intCast_div_natCast]
    norm_num
  have hc : ⌈(h : Rat) / 8⌉ = -⌊-((h : Rat) / 8)⌋ := by
    rw [Int.floor_neg]
    ring
  rw [hc, neg_div] at *
  omega

/-- C4.  Refutation of the example arithmetic: on the specification's
three-task example the critical path is [1, 2, 3] as claimed, but its
total duration is 1 + 2 + 1 = 4 work-days (the DONE task 1 contributes
its minimum 1 day), not 3. -/
theorem C4_counterexample :
    (criticalPath exC4).path = [1, 2, 3] ∧ (criticalPath exC4).duration ≠ 3 := by
  decide

/-- C4 (amended).  The duration of a task is the ceiling of
estimatedEffortHours / 8 for a positive estimate, exactly 1 for a null or
zero estimate, and independent of the task's status (a DONE task
contributes its full duration), so the three-task example yields the
critical path [1, 2, 3] with total duration 4 work-days. -/
theorem C4_duration_semantics :
    (∀ (t : Task) (h : Int), t.estimated_hours = some h → 0 < h →
      taskDuration t = ⌈(h : Rat) / 8⌉) ∧
    (∀ t : Task, t.estimated_hours = none ∨ t.estimated_hours = some 0 →
      taskDuration t = 1) ∧
    (∀ (t : Task) (s : Status),
      taskDuration { t with status := s } = taskDuration t) ∧
    criticalPath exC4 = ⟨[1, 2, 3], 4⟩ := by
  refine ⟨?_, ?_, ?_, by decide⟩
  · intro t h he hpos
    have hdef : taskDuration t = if h = 0 then 1 else max 1 (-(-h / 8)) := by
      unfold taskDuration
      rw [he]
    rw [hdef, if_neg (ne_of_gt hpos), intCeilDiv8_eq]
    have hq : (0 : Rat) < (h : Rat) / 8 := by positivity
    have h1 : 1 ≤ ⌈(h : Rat) / 8⌉ := Int.ceil_pos.mpr hq
    exact max_eq_right h1
  · intro t ht
    rcases ht with h | h <;> simp [taskDuration, h]
  · intro t s
    rfl

/-- C4 witness: the duration clauses applied to the example's task 2
(16 hours, duration 2) and task 1 (no estimate, duration 1). -/
theorem C4_witness :
    taskDuration ⟨2, PENDING, some 16, some [1], 2⟩ = ⌈((16 : Int) : Rat) / 8⌉ ∧
    taskDuration ⟨1, DONE, none, some [], 1⟩ = 1 :=
  ⟨C4_duration_semantics.1 ⟨2, PENDING, some 16, some [1], 2⟩ 16 rfl
      (by norm_num),
   C4_duration_semantics.2.1 ⟨1, DONE, none, some [], 1⟩ (Or.inl rfl)⟩

/-! ### Critical path: duration sums and maximality -/

lemma one_le_taskDuration (t : Task) : 1 ≤ taskDuration t := by
  unfold taskDuration
  cases t.estimated_hours with
  | none => exact le_refl 1
  | some h =>
    show 1 ≤ if h = 0 then 1 else max 1 (-(-h / 8))
    by_cases h0 : h = 0
    · rw [if_pos h0]
    · rw [if_neg h0]
      exact le_max_left 1 _

lemma find_eq_of_nodup {l : List Task} {t : Task}
    (hnodup : (l.map Task.id).Nodup) (hmem : t ∈ l) :
    l.find? (fun u => u.id == t.id) = some t := by
  induction l with
  | nil => exact absurd hmem (List.not_mem_nil t)
  | cons u l' ih =>
    rcases List.mem_cons.mp hmem with rfl | hmem'
    · simp [List.find?]
    · have hne : u.id ≠ t.id := by
        intro he
        have : t.id ∈ l'.map Task.id := List.mem_map_of_mem Task.id hmem'
        rw [← he] at this
        exact (List.nodup_cons.mp hnodup).1 this
      have : (u.id == t.id) = false := by
        simp [hne]
      rw [List.find?]
      rw [this]
      exact ih (List.nodup_cons.mp hnodup).2 hmem'

lemma mapGet_of_nodup {tasks : List Task} {t : Task}
    (hnodup : uniqueIds tasks) (hmem : t ∈ tasks) :
    mapGet tasks t.id = some t := by
  unfold mapGet
  apply find_eq_of_nodup
  · rw [List.map_reverse]
    exact List.nodup_reverse.mpr hnodup
  · exact List.mem_reverse.mpr hmem

lemma mem_downstreamTasks {tasks : List Task} {u : Task} {a : Int}
    (hu : u ∈ tasks) (hdep : a ∈ depIds u) :
    u ∈ downstreamTasks tasks a := by
  unfold downstreamTasks
  rw [List.mem_filter]
  exact ⟨hu, by simpa using hdep⟩

lemma NStep_of_edge {tasks : List Task} {t u : Task}
    (hu : u ∈ tasks) (hdep : t.id ∈ depIds u) :
    NStep tasks t.id u.id := by
  unfold NStep downNbrs
  exact List.mem_map_of_mem Task.id (mem_downstreamTasks hu hdep)

lemma getLongestPath_succ (tasks : List Task) (fuel : Nat) :
    getLongestPath tasks (fuel + 1) = glpStep tasks (getLongestPath tasks fuel) :=
  rfl

lemma glp_duration_nonneg (tasks : List Task) :
    ∀ (fuel : Nat) (taskId : Int), 0 ≤ (getLongestPath tasks fuel taskId).duration := by
  intro fuel
  induction fuel with
  | zero => intro taskId; exact le_refl 0
  | succ f ih =>
    intro taskId
    rw [getLongestPath_succ]
    unfold glpStep
    cases hm : mapGet tasks taskId with
    | none => exact le_refl 0
    | some task =>
      cases hds : downstreamTasks tasks taskId with
      | nil =>
        simp only
        exact le_trans (by norm_num) (one_le_taskDuration task)
      | cons d ds =>
        simp only
        have h1 := one_le_taskDuration task
        have h2 := foldl_chooseLonger_init_le
          ((d :: ds).map (fun dt => getLongestPath tasks f dt.id)) ⟨[], 0⟩
        simp only at h2
        omega

lemma glp_duration_pos (tasks : List Task) (fuel : Nat) (taskId : Int)
    (task : Task) (hm : mapGet tasks taskId = some task) :
    1 ≤ (getLongestPath tasks (fuel + 1) taskId).duration := by
  rw [getLongestPath_succ]
  unfold glpStep
  rw [hm]
  cases hds : downstreamTasks tasks taskId with
  | nil =>
    simp only
    exact one_le_taskDuration task
  | cons d ds =>
    simp only
    have h1 := one_le_taskDuration task
    have h2 := foldl_chooseLonger_init_le
      ((d :: ds).map (fun dt => getLongestPath tasks fuel dt.id)) ⟨[], 0⟩
    simp only at h2
    omega

lemma pathDurationSum_cons (tasks : List Task) (i : Int) (ids : List Int) :
    pathDurationSum tasks (i :: ids) =
      (match mapGet tasks i with
        | some t => taskDuration t
        | none => 0) + pathDurationSum tasks ids := by
  unfold pathDurationSum
  rw [List.map_cons, List.sum_cons]

lemma glp_duration_eq_sum (tasks : List Task) :
    ∀ (fuel : Nat) (taskId : Int),
      (getLongestPath tasks fuel taskId).duration =
        pathDurationSum tasks (getLongestPath tasks fuel taskId).path := by
  intro fuel
  induction fuel with
  | zero =>
    intro taskId
    rfl
  | succ f ih =>
    intro taskId
    rw [getLongestPath_succ]
    unfold glpStep
    cases hm : mapGet tasks taskId with
    | none => rfl
    | some task =>
      cases hds : downstreamTasks tasks taskId with
      | nil =>
        simp only
        rw [pathDurationSum_cons, hm]
        simp [pathDurationSum]
      | cons d ds =>
        simp only
        rw [pathDurationSum_cons, hm]
        rcases foldl_chooseLonger_mem_or
            ((d :: ds).map (fun dt => getLongestPath tasks f dt.id)) ⟨[], 0⟩
          with heq | hmem
        · rw [heq]
          simp [pathDurationSum]
        · rcases List.mem_map.mp hmem with ⟨dt, _, hdt⟩
          rw [← hdt, ← ih dt.id]

lemma DownChain_head_mem {tasks : List Task} {t : Task} {p : List Task}
    (h : DownChain tasks t p) : t ∈ tasks := by
  cases h with
  | single t ht => exact ht
  | cons t u p ht _ _ => exact ht

lemma DownChain_mem {tasks : List Task} {t : Task} {p : List Task}
    (h : DownChain tasks t p) : ∀ x ∈ p, x ∈ tasks := by
  induction h with
  | single t ht =>
    intro x hx
    rw [List.mem_singleton.mp hx]
    exact ht
  | cons t u p ht hdep hch ih =>
    intro x hx
    rcases List.mem_cons.mp hx with rfl | hx'
    · exact ht
    · exact ih x hx'

lemma DownChain_reaches {tasks : List Task} {t : Task} {p : List Task}
    (h : DownChain tasks t p) :
    ∀ y ∈ p, y = t ∨ Relation.TransGen (NStep tasks) t.id y.id := by
  induction h with
  | single t ht =>
    intro y hy
    exact Or.inl (List.mem_singleton.mp hy)
  | cons t u p ht hdep hch ih =>
    intro y hy
    have hstep : NStep tasks t.id u.id :=
      NStep_of_edge (DownChain_head_mem hch) hdep
    rcases List.mem_cons.mp hy with rfl | hy'
    · exact Or.inl rfl
    · rcases ih y hy' with rfl | htrans
      · exact Or.inr (Relation.TransGen.single hstep)
      · exact Or.inr (Relation.TransGen.head hstep htrans)

lemma DownChain_nodup {tasks : List Task} (hacyc : Acyclic tasks) :
    ∀ {t : Task} {p : List Task}, DownChain tasks t p →
      (p.map Task.id).Nodup := by
  intro t p h
  induction h with
  | single t ht => simp
  | cons t u p ht hdep hch ih =>
    rw [List.map_cons, List.nodup_cons]
    refine ⟨?_, ih⟩
    intro hmem
    rcases List.mem_map.mp hmem with ⟨y, hy, hyid⟩
    have hstep : NStep tasks t.id u.id :=
      NStep_of_edge (DownChain_head_mem hch) hdep
    rcases DownChain_reaches hch y hy with rfl | htrans
    · exact hacyc t.id (by
        have : Relation.TransGen (NStep tasks) t.id y.id :=
          Relation.TransGen.single hstep
        rwa [hyid] at this)
    · exact hacyc t.id (by
        have : Relation.TransGen (NStep tasks) t.id y.id :=
          Relation.TransGen.head hstep htrans
        rwa [hyid] at this)

lemma nodup_length_le {p tasks : List Task}
    (hnodup : (p.map Task.id).Nodup) (hsub : ∀ x ∈ p, x ∈ tasks) :
    p.length ≤ tasks.length := by
  have h1 : (p.map Task.id).toFinset.card = (p.map Task.id).length :=
    List.toFinset_card_of_nodup hnodup
  have h2 : (p.map Task.id).toFinset ⊆ (tasks.map Task.id).toFinset := by
    intro x hx
    rw [List.mem_toFinset] at hx ⊢
    rcases List.mem_map.mp hx with ⟨y, hy, hyx⟩
    exact hyx ▸ List.mem_map_of_mem Task.id (hsub y hy)
  have h3 : (tasks.map Task.id).toFinset.card ≤ (tasks.map Task.id).length :=
    List.toFinset_card_le _
  have := le_trans (le_of_eq h1.symm) (le_trans (Finset.card_le_card h2) h3)
  simpa using this

lemma DownChain_shape {tasks : List Task} {t : Task} {p : List Task}
    (h : DownChain tasks t p) : ∃ p', p = t :: p' := by
  cases h with
  | single t ht => exact ⟨[], rfl⟩
  | cons t u p ht _ _ => exact ⟨u :: p, rfl⟩

lemma exists_root {tasks : List Task} (hne : tasks ≠ [])
    (hclosed : depsClosed tasks) (hacyc : Acyclic tasks) :
    ∃ r ∈ tasks, isRoot r = true := by
  by_contra hno
  push_neg at hno
  have hnoroot : ∀ r ∈ tasks, isRoot r = false := by
    intro r hr
    cases hb : isRoot r with
    | false => rfl
    | true => exact absurd hb (hno r hr)
  obtain ⟨t0, ht0⟩ := List.exists_mem_of_ne_nil tasks hne
  have hgrow : ∀ k : Nat, ∃ (s : Task) (p : List Task),
      DownChain tasks s p ∧ p.length = k + 1 := by
    intro k
    induction k with
    | zero => exact ⟨t0, [t0], DownChain.single t0 ht0, rfl⟩
    | succ k ih =>
      obtain ⟨s, p, hchain, hlen⟩ := ih
      have hs : s ∈ tasks := DownChain_head_mem hchain
      obtain ⟨p', rfl⟩ := DownChain_shape hchain
      have hdeps : depIds s ≠ [] := by
        have := hnoroot s hs
        unfold isRoot at this
        unfold depIds
        cases hd : s.depends_on with
        | none => rw [hd] at this; exact absurd this (by simp)
        | some l =>
          rw [hd] at this
          simpa using this
      obtain ⟨d, hd⟩ := List.exists_mem_of_ne_nil _ hdeps
      obtain ⟨u, hu, huid⟩ := hclosed s hs d hd
      refine ⟨u, u :: s :: p', DownChain.cons u s p' hu ?_ hchain, by simpa using hlen⟩
      rw [huid]
      exact hd
  obtain ⟨s, p, hchain, hlen⟩ := hgrow tasks.length
  have := nodup_length_le (DownChain_nodup hacyc hchain) (DownChain_mem hchain)
  omega

lemma glp_ge_chain (tasks : List Task) (hnodup : uniqueIds tasks) :
    ∀ {t : Task} {p : List Task}, DownChain tasks t p →
      ∀ fuel : Nat, p.length ≤ fuel →
        taskDurSum p ≤ (getLongestPath tasks fuel t.id).duration := by
  intro t p h
  induction h with
  | single t ht =>
    intro fuel hfuel
    obtain ⟨f, rfl⟩ : ∃ f, fuel = f + 1 := by
      cases fuel with
      | zero => simp at hfuel
      | succ f => exact ⟨f, rfl⟩
    rw [getLongestPath_succ]
    unfold glpStep
    rw [mapGet_of_nodup hnodup ht]
    cases hds : downstreamTasks tasks t.id with
    | nil =>
      simp only
      simp [taskDurSum]
    | cons d ds =>
      simp only
      have h2 := foldl_chooseLonger_init_le
        (getLongestPath tasks f d.id ::
          ds.map (fun dt => getLongestPath tasks f dt.id)) ⟨[], 0⟩
      simp only at h2
      simp only [taskDurSum, List.map_cons, List.map_nil, List.sum_cons,
        List.sum_nil, add_zero]
      omega
  | cons t u p ht hdep hch ih =>
    intro fuel hfuel
    obtain ⟨f, rfl⟩ : ∃ f, fuel = f + 1 := by
      cases fuel with
      | zero => simp at hfuel
      | succ f => exact ⟨f, rfl⟩
    rw [getLongestPath_succ]
    unfold glpStep
    rw [mapGet_of_nodup hnodup ht]
    have hu : u ∈ downstreamTasks tasks t.id :=
      mem_downstreamTasks (DownChain_head_mem hch) hdep
    cases hds : downstreamTasks tasks t.id with
    | nil =>
      rw [hds] at hu
      exact absurd hu (List.not_mem_nil u)
    | cons d ds =>
      simp only
      rw [hds] at hu
      have hmem : getLongestPath tasks f u.id ∈
          (d :: ds).map (fun dt => getLongestPath tasks f dt.id) :=
        List.mem_map_of_mem (fun dt => getLongestPath tasks f dt.id) hu
      have hle := foldl_chooseLonger_mem_le
        ((d :: ds).map (fun dt => getLongestPath tasks f dt.id)) ⟨[], 0⟩
        (getLongestPath tasks f u.id) hmem
      have hchainle := ih f (by simpa using Nat.succ_le_succ_iff.mp hfuel)
      have hsum : taskDurSum (t :: u :: p) = taskDuration t + taskDurSum (u :: p) := by
        simp [taskDurSum]
      omega

lemma criticalPath_eq_foldl (tasks : List Task) :
    criticalPath tasks =
      ((rootTasks tasks).map
        (fun t => getLongestPath tasks tasks.length t.id)).foldl
        chooseLonger ⟨[], -1⟩ := by
  unfold criticalPath
  rw [List.foldl_map]

/-- C2.  For a nonempty valid snapshot (distinct ids, dependencies all
present, no dependency cycle) the critical-path record is one of the
longest-path records, so its duration equals the sum of the durations of
the tasks on its path; and no root-to-leaf downstream chain (starting at
a task with empty dependency list and ending at a task with no
dependents) has a strictly greater duration sum. -/
theorem C2_critical_path_sum_and_maximality (tasks : List Task)
    (hne : tasks ≠ []) (hnodup : uniqueIds tasks)
    (hclosed : depsClosed tasks) (hacyc : Acyclic tasks) :
    (criticalPath tasks).duration =
      pathDurationSum tasks (criticalPath tasks).path ∧
    ∀ (p : List Task) (t last : Task), DownChain tasks t p → isRoot t = true →
      p.getLast? = some last → downstreamTasks tasks last.id = [] →
      taskDurSum p ≤ (criticalPath tasks).duration := by
  have hn1 : 1 ≤ tasks.length := by
    cases tasks with
    | nil => exact absurd rfl hne
    | cons a l => simp
  constructor
  · obtain ⟨r, hr, hroot⟩ := exists_root hne hclosed hacyc
    have hrmem : r ∈ rootTasks tasks := by
      unfold rootTasks
      rw [List.mem_filter]
      exact ⟨hr, hroot⟩
    have hLmem : getLongestPath tasks tasks.length r.id ∈
        (rootTasks tasks).map (fun t => getLongestPath tasks tasks.length t.id) :=
      List.mem_map_of_mem _ hrmem
    rw [criticalPath_eq_foldl]
    rcases foldl_chooseLonger_mem_or
        ((rootTasks tasks).map (fun t => getLongestPath tasks tasks.length t.id))
        ⟨[], -1⟩ with heq | hmem
    · exfalso
      obtain ⟨f, hf⟩ : ∃ f, tasks.length = f + 1 := ⟨tasks.length - 1, by omega⟩
      have hpos := glp_duration_pos tasks f r.id r (mapGet_of_nodup hnodup hr)
      rw [← hf] at hpos
      have hle := foldl_chooseLonger_mem_le
        ((rootTasks tasks).map (fun t => getLongestPath tasks tasks.length t.id))
        ⟨[], -1⟩ _ hLmem
      rw [heq] at hle
      simp only at hle
      omega
    · rcases List.mem_map.mp hmem with ⟨s, _, hs⟩
      rw [← hs, glp_duration_eq_sum]
  · intro p t last hchain hroot _ _
    have hlen : p.length ≤ tasks.length :=
      nodup_length_le (DownChain_nodup hacyc hchain) (DownChain_mem hchain)
    have hbound := glp_ge_chain tasks hnodup hchain tasks.length hlen
    have htmem : t ∈ rootTasks tasks := by
      unfold rootTasks
      rw [List.mem_filter]
      exact ⟨DownChain_head_mem hchain, hroot⟩
    have hLmem : getLongestPath tasks tasks.length t.id ∈
        (rootTasks tasks).map (fun u => getLongestPath tasks tasks.length u.id) :=
      List.mem_map_of_mem _ htmem
    have hle := foldl_chooseLonger_mem_le
      ((rootTasks tasks).map (fun u => getLongestPath tasks tasks.length u.id))
      ⟨[], -1⟩ _ hLmem
    rw [← criticalPath_eq_foldl] at hle
    omega

/-- Helper for instantiating Acyclic at concrete snapshots: if every
dependency id is strictly smaller than the id of the task listing it,
downstream edges strictly increase ids, so no id reaches itself. -/
lemma acyclic_of_increasing {tasks : List Task}
    (h : ∀ t ∈ tasks, ∀ d ∈ depIds t, d < t.id) : Acyclic tasks := by
  have hstep : ∀ a b : Int, NStep tasks a b → a < b := by
    intro a b hab
    unfold NStep downNbrs at hab
    rcases List.mem_map.mp hab with ⟨u, hu, huid⟩
    unfold downstreamTasks at hu
    rw [List.mem_filter] at hu
    have := h u hu.1 a (by simpa using hu.2)
    omega
  intro a hcyc
  have : ∀ x y : Int, Relation.TransGen (NStep tasks) x y → x < y := by
    intro x y hxy
    induction hxy with
    | single h1 => exact hstep _ _ h1
    | tail h1 h2 ih => exact lt_trans ih (hstep _ _ h2)
  exact absurd (this a a hcyc) (lt_irrefl a)

/-- C2 witness: the theorem applied to the acyclic chain exChain with the
root-to-leaf chain from task 1 through task 3. -/
theorem C2_witness :
    (criticalPath exChain).duration =
      pathDurationSum exChain (criticalPath exChain).path ∧
    taskDurSum [⟨1, PENDING, none, some [], 1⟩, ⟨3, PENDING, none, some [1, 2], 3⟩]
      ≤ (criticalPath exChain).duration := by
  have h := C2_critical_path_sum_and_maximality exChain (by decide)
    (by unfold uniqueIds; decide)
    (by unfold depsClosed; decide)
    (acyclic_of_increasing (by decide))
  refine ⟨h.1, ?_⟩
  exact h.2 [⟨1, PENDING, none, some [], 1⟩, ⟨3, PENDING, none, some [1, 2], 3⟩]
    ⟨1, PENDING, none, some [], 1⟩ ⟨3, PENDING, none, some [1, 2], 3⟩
    (DownChain.cons _ _ [] (by decide) (by decide)
      (DownChain.single _ (by decide)))
    (by decide) rfl (by decide)

/-- C10.  The falsy guard at the head of getRelatedTaskIds: a null or
undefined focus id (modelled as none) and the integer 0 both produce the
empty related set — for a task with id 0 the result does not even contain
the focus task itself. -/
theorem C10_falsy_guard_returns_empty (tasks : List Task) :
    getRelatedTaskIds tasks none = [] ∧
    getRelatedTaskIds tasks (some 0) = [] ∧
    (0 : Int) ∉ getRelatedTaskIds tasks (some 0) := by
  refine ⟨rfl, ?_, ?_⟩ <;>
    simp [getRelatedTaskIds, getRelatedTaskIdsFuel]

/-! ### The related-ids walks: growth, soundness, closure, fuel stability -/

lemma dfs_succ (nbrs : Int → List Int) (fuel : Nat) (taskId : Int) (rel : List Int) :
    dfs nbrs (fuel + 1) taskId rel = dfsList nbrs (dfs nbrs fuel) (nbrs taskId) rel :=
  rfl

lemma dfsList_cons_mem (nbrs : Int → List Int) (rec : Int → List Int → List Int)
    {n : Int} {rel : List Int} (h : n ∈ rel) (rest : List Int) :
    dfsList nbrs rec (n :: rest) rel = dfsList nbrs rec rest rel := by
  show (if n ∈ rel then dfsList nbrs rec rest rel
      else dfsList nbrs rec rest (rec n (n :: rel))) = dfsList nbrs rec rest rel
  rw [if_pos h]

lemma dfsList_cons_new (nbrs : Int → List Int) (rec : Int → List Int → List Int)
    {n : Int} {rel : List Int} (h : n ∉ rel) (rest : List Int) :
    dfsList nbrs rec (n :: rest) rel = dfsList nbrs rec rest (rec n (n :: rel)) := by
  show (if n ∈ rel then dfsList nbrs rec rest rel
      else dfsList nbrs rec rest (rec n (n :: rel)))
    = dfsList nbrs rec rest (rec n (n :: rel))
  rw [if_neg h]

lemma dfsList_subset_of (nbrs : Int → List Int) (rec : Int → List Int → List Int)
    (hrec : ∀ n rel, rel ⊆ rec n rel) :
    ∀ (ns rel : List Int), rel ⊆ dfsList nbrs rec ns rel := by
  intro ns
  induction ns with
  | nil => intro rel x hx; exact hx
  | cons n rest ih =>
    intro rel
    by_cases hn : n ∈ rel
    · rw [dfsList_cons_mem nbrs rec hn]
      exact ih rel
    · rw [dfsList_cons_new nbrs rec hn]
      intro x hx
      exact ih (rec n (n :: rel)) (hrec n (n :: rel) (List.mem_cons_of_mem n hx))

lemma dfs_subset (nbrs : Int → List Int) :
    ∀ (fuel : Nat) (taskId : Int) (rel : List Int), rel ⊆ dfs nbrs fuel taskId rel := by
  intro fuel
  induction fuel with
  | zero => intro taskId rel x hx; exact hx
  | succ f ih =>
    intro taskId rel
    rw [dfs_succ]
    exact dfsList_subset_of nbrs (dfs nbrs f) (fun n r => ih n r) (nbrs taskId) rel

lemma dfsList_sound_of (nbrs : Int → List Int) (rec : Int → List Int → List Int)
    (hrec : ∀ n rel x, x ∈ rec n rel →
      x ∈ rel ∨ Relation.TransGen (fun a b => b ∈ nbrs a) n x) :
    ∀ (ns rel : List Int) (x : Int), x ∈ dfsList nbrs rec ns rel →
      x ∈ rel ∨ ∃ n ∈ ns, x = n ∨ Relation.TransGen (fun a b => b ∈ nbrs a) n x := by
  intro ns
  induction ns with
  | nil => intro rel x hx; exact Or.inl hx
  | cons n rest ih =>
    intro rel x hx
    by_cases hn : n ∈ rel
    · rw [dfsList_cons_mem nbrs rec hn] at hx
      rcases ih rel x hx with h | ⟨m, hm, hmx⟩
      · exact Or.inl h
      · exact Or.inr ⟨m, List.mem_cons_of_mem n hm, hmx⟩
    · rw [dfsList_cons_new nbrs rec hn] at hx
      rcases ih (rec n (n :: rel)) x hx with h | ⟨m, hm, hmx⟩
      · rcases hrec n (n :: rel) x h with h' | h'
        · rcases List.mem_cons.mp h' with rfl | h''
          · exact Or.inr ⟨x, List.mem_cons_self x rest, Or.inl rfl⟩
          · exact Or.inl h''
        · exact Or.inr ⟨n, List.mem_cons_self n rest, Or.inr h'⟩
      · exact Or.inr ⟨m, List.mem_cons_of_mem n hm, hmx⟩

lemma dfs_sound (nbrs : Int → List Int) :
    ∀ (fuel : Nat) (taskId : Int) (rel : List Int) (x : Int),
      x ∈ dfs nbrs fuel taskId rel →
      x ∈ rel ∨ Relation.TransGen (fun a b => b ∈ nbrs a) taskId x := by
  intro fuel
  induction fuel with
  | zero => intro taskId rel x hx; exact Or.inl hx
  | succ f ih =>
    intro taskId rel x hx
    rw [dfs_succ] at hx
    rcases dfsList_sound_of nbrs (dfs nbrs f) (fun n r y hy => ih n r y hy)
        (nbrs taskId) rel x hx with h | ⟨n, hn, hnx⟩
    · exact Or.inl h
    · rcases hnx with rfl | htr
      · exact Or.inr (Relation.TransGen.single hn)
      · exact Or.inr (Relation.TransGen.head hn htr)

lemma downNbrs_mem_universe (tasks : List Task) :
    ∀ a b : Int, b ∈ downNbrs tasks a → b ∈ idUniverse tasks := by
  intro a b hb
  unfold downNbrs at hb
  rcases List.mem_map.mp hb with ⟨τ, hτ, rfl⟩
  unfold downstreamTasks at hτ
  rw [List.mem_filter] at hτ
  unfold idUniverse
  rw [List.mem_toFinset, List.mem_append]
  exact Or.inl (List.mem_map_of_mem Task.id hτ.1)

lemma upNbrs_mem_universe (tasks : List Task) :
    ∀ a b : Int, b ∈ upNbrs tasks a → b ∈ idUniverse tasks := by
  intro a b hb
  unfold upNbrs at hb
  cases hf : findById tasks a with
  | none =>
    rw [hf] at hb
    exact absurd hb (List.not_mem_nil b)
  | some τ =>
    rw [hf] at hb
    have hτ : τ ∈ tasks := List.mem_of_find?_eq_some hf
    unfold idUniverse
    rw [List.mem_toFinset, List.mem_append]
    refine Or.inr ?_
    rw [List.mem_flatten]
    exact ⟨depIds τ, List.mem_map_of_mem depIds hτ, hb⟩

lemma universe_card_lt_relFuel (tasks : List Task) :
    (idUniverse tasks).card < relFuel tasks := by
  unfold idUniverse relFuel
  have h1 := List.toFinset_card_le ((tasks.map Task.id) ++ (tasks.map depIds).flatten)
  rw [List.length_append, List.length_map] at h1
  have h2 : ((tasks.map depIds).flatten).length =
      (tasks.map (fun t => (depIds t).length)).sum := by
    rw [List.length_flatten, List.map_map]
    congr 1
  omega

lemma card_diff_lt_of_mem (U : Finset Int) {n : Int} {rel : List Int}
    (hnU : n ∈ U) (hn : n ∉ rel) :
    (U \ (n :: rel).toFinset).card < (U \ rel.toFinset).card := by
  have h1 : (n :: rel).toFinset = insert n rel.toFinset := by
    simp
  have h2 : U \ insert n rel.toFinset = (U \ rel.toFinset).erase n := by
    ext x
    simp only [Finset.mem_sdiff, Finset.mem_insert, Finset.mem_erase]
    tauto
  rw [h1, h2]
  exact Finset.card_erase_lt_of_mem
    (Finset.mem_sdiff.mpr ⟨hnU, by simpa using hn⟩)

lemma card_diff_mono (U : Finset Int) {rel rel' : List Int} (h : rel ⊆ rel') :
    (U \ rel'.toFinset).card ≤ (U \ rel.toFinset).card := by
  apply Finset.card_le_card
  apply Finset.sdiff_subset_sdiff (Finset.Subset.refl U)
  intro x hx
  rw [List.mem_toFinset] at hx ⊢
  exact h hx

lemma dfs_closed (nbrs : Int → List Int) (U : Finset Int)
    (hU : ∀ a b : Int, b ∈ nbrs a → b ∈ U) :
    ∀ (fuel : Nat) (taskId : Int) (rel : List Int),
      (U \ rel.toFinset).card < fuel →
      (∀ n ∈ nbrs taskId, n ∈ dfs nbrs fuel taskId rel) ∧
      (∀ w ∈ dfs nbrs fuel taskId rel, w ∉ rel →
        ∀ n ∈ nbrs w, n ∈ dfs nbrs fuel taskId rel) := by
  intro fuel
  induction fuel using Nat.strong_induction_on with
  | _ fuel ih =>
    intro taskId rel hcard
    obtain ⟨f, rfl⟩ : ∃ f, fuel = f + 1 := by
      cases fuel with
      | zero => omega
      | succ f => exact ⟨f, rfl⟩
    have hlist : ∀ (ns : List Int), (∀ n ∈ ns, n ∈ U) → ∀ (rel : List Int),
        (U \ rel.toFinset).card ≤ f →
        (∀ n ∈ ns, n ∈ dfsList nbrs (dfs nbrs f) ns rel) ∧
        (∀ w ∈ dfsList nbrs (dfs nbrs f) ns rel, w ∉ rel →
          ∀ n ∈ nbrs w, n ∈ dfsList nbrs (dfs nbrs f) ns rel) := by
      intro ns
      induction ns with
      | nil =>
        intro _ rel _
        refine ⟨fun n hn => absurd hn (List.not_mem_nil n), ?_⟩
        intro w hw hwrel
        exact absurd hw hwrel
      | cons n rest ihns =>
        intro hnsU rel hrelcard
        by_cases hn : n ∈ rel
        · rw [dfsList_cons_mem nbrs (dfs nbrs f) hn]
          have h := ihns (fun m hm => hnsU m (List.mem_cons_of_mem n hm)) rel hrelcard
          refine ⟨?_, h.2⟩
          intro m hm
          rcases List.mem_cons.mp hm with rfl | hm'
          · exact dfsList_subset_of nbrs (dfs nbrs f)
              (fun a r => dfs_subset nbrs f a r) rest rel hn
          · exact h.1 m hm'
        · rw [dfsList_cons_new nbrs (dfs nbrs f) hn]
          have hnU : n ∈ U := hnsU n (List.mem_cons_self n rest)
          have hcard' : (U \ ((n :: rel).toFinset)).card < f :=
            lt_of_lt_of_le (card_diff_lt_of_mem U hnU hn) hrelcard
          have hdfs := ih f (Nat.lt_succ_self f) n (n :: rel) hcard'
          have hsub1 : (n :: rel) ⊆ dfs nbrs f n (n :: rel) :=
            dfs_subset nbrs f n (n :: rel)
          have hcard'' : (U \ (dfs nbrs f n (n :: rel)).toFinset).card ≤ f :=
            le_trans (card_diff_mono U hsub1) (le_of_lt hcard')
          have hrest := ihns (fun m hm => hnsU m (List.mem_cons_of_mem n hm))
            (dfs nbrs f n (n :: rel)) hcard''
          have hrelS : dfs nbrs f n (n :: rel) ⊆
              dfsList nbrs (dfs nbrs f) rest (dfs nbrs f n (n :: rel)) :=
            dfsList_subset_of nbrs (dfs nbrs f)
              (fun a r => dfs_subset nbrs f a r) rest (dfs nbrs f n (n :: rel))
          constructor
          · intro m hm
            rcases List.mem_cons.mp hm with rfl | hm'
            · exact hrelS (hsub1 (List.mem_cons_self m rel))
            · exact hrest.1 m hm'
          · intro w hw hwrel
            by_cases hw' : w ∈ dfs nbrs f n (n :: rel)
            · by_cases hwn : w = n
              · subst hwn
                intro m hm
                exact hrelS (hdfs.1 m hm)
              · have hwrel' : w ∉ n :: rel := by
                  intro hc
                  rcases List.mem_cons.mp hc with rfl | hc'
                  · exact hwn rfl
                  · exact hwrel hc'
                intro m hm
                exact hrelS (hdfs.2 w hw' hwrel' m hm)
            · exact hrest.2 w hw hw'
    rw [dfs_succ]
    exact hlist (nbrs taskId) (fun n hn => hU taskId n hn) rel (by omega)

lemma dfs_complete (nbrs : Int → List Int) (U : Finset Int)
    (hU : ∀ a b : Int, b ∈ nbrs a → b ∈ U)
    (fuel : Nat) (taskId : Int) (rel : List Int)
    (hcard : (U \ rel.toFinset).card < fuel) :
    ∀ (a : Int) (l : List Int), NChain nbrs a l →
      (a = taskId ∨ (a ∈ dfs nbrs fuel taskId rel ∧ a ∉ rel)) →
      (∀ x ∈ l, x ∉ rel) → ∀ x ∈ l, x ∈ dfs nbrs fuel taskId rel := by
  have hcl := dfs_closed nbrs U hU fuel taskId rel hcard
  intro a l hchain
  induction hchain with
  | nil a =>
    intro _ _ x hx
    exact absurd hx (List.not_mem_nil x)
  | cons a b l hb hbl ihc =>
    intro ha hl x hx
    have hbS : b ∈ dfs nbrs fuel taskId rel := by
      rcases ha with rfl | ⟨haS, harel⟩
      · exact hcl.1 b hb
      · exact hcl.2 a haS harel b hb
    rcases List.mem_cons.mp hx with rfl | hx'
    · exact hbS
    · exact ihc (Or.inr ⟨hbS, hl b (List.mem_cons_self b l)⟩)
        (fun y hy => hl y (List.mem_cons_of_mem b hy)) x hx'

lemma dfs_stab (nbrs : Int → List Int) (U : Finset Int)
    (hU : ∀ a b : Int, b ∈ nbrs a → b ∈ U) :
    ∀ (c f g : Nat) (taskId : Int) (rel : List Int),
      (U \ rel.toFinset).card ≤ c → c < f → c < g →
      dfs nbrs f taskId rel = dfs nbrs g taskId rel := by
  intro c
  induction c using Nat.strong_induction_on with
  | _ c ihc =>
    intro f g taskId rel hcard hcf hcg
    obtain ⟨f', rfl⟩ : ∃ f', f = f' + 1 := by
      cases f with
      | zero => omega
      | succ f' => exact ⟨f', rfl⟩
    obtain ⟨g', rfl⟩ : ∃ g', g = g' + 1 := by
      cases g with
      | zero => omega
      | succ g' => exact ⟨g', rfl⟩
    rw [dfs_succ, dfs_succ]
    have hlist : ∀ (ns : List Int), (∀ n ∈ ns, n ∈ U) → ∀ (rel : List Int),
        (U \ rel.toFinset).card ≤ c →
        dfsList nbrs (dfs nbrs f') ns rel = dfsList nbrs (dfs nbrs g') ns rel := by
      intro ns
      induction ns with
      | nil => intro _ rel _; rfl
      | cons n rest ihns =>
        intro hns rel hrc
        by_cases hn : n ∈ rel
        · rw [dfsList_cons_mem nbrs (dfs nbrs f') hn,
            dfsList_cons_mem nbrs (dfs nbrs g') hn]
          exact ihns (fun m hm => hns m (List.mem_cons_of_mem n hm)) rel hrc
        · rw [dfsList_cons_new nbrs (dfs nbrs f') hn,
            dfsList_cons_new nbrs (dfs nbrs g') hn]
          have hnU : n ∈ U := hns n (List.mem_cons_self n rest)
          have hclt : (U \ ((n :: rel).toFinset)).card < c :=
            lt_of_lt_of_le (card_diff_lt_of_mem U hnU hn) hrc
          have heq : dfs nbrs f' n (n :: rel) = dfs nbrs g' n (n :: rel) :=
            ihc _ hclt f' g' n (n :: rel) (le_refl _) (by omega) (by omega)
          rw [heq]
          have hc'' : (U \ (dfs nbrs g' n (n :: rel)).toFinset).card ≤ c :=
            le_trans (card_diff_mono U (dfs_subset nbrs g' n (n :: rel)))
              (le_trans (card_diff_mono U (List.subset_cons_self n rel)) hrc)
          exact ihns (fun m hm => hns m (List.mem_cons_of_mem n hm))
            (dfs nbrs g' n (n :: rel)) hc''
    exact hlist (nbrs taskId) (fun n hn => hU taskId n hn) rel (by omega)

lemma getRelatedTaskIdsFuel_some (tasks : List Task) (fuel : Nat) (tid : Int) :
    getRelatedTaskIdsFuel tasks fuel (some tid) =
      if tid = 0 then []
      else dfs (upNbrs tasks) fuel tid (dfs (downNbrs tasks) fuel tid [tid]) :=
  rfl

/-- C9.  Once the fuel reaches the bound relFuel (one more than the number
of task ids plus dependency ids), adding any amount of extra fuel never
changes the result of getRelatedTaskIds, on every input including cyclic
snapshots: each recursive call of either walk first adds an unvisited id
from the finite universe to the related set, so the recursion depth is
bounded and the walks terminate. -/
theorem C9_related_walk_fuel_stabilizes (tasks : List Task) (fuel : Nat)
    (taskId : Option Int) (h : relFuel tasks ≤ fuel) :
    getRelatedTaskIdsFuel tasks fuel taskId = getRelatedTaskIds tasks taskId := by
  unfold getRelatedTaskIds
  cases taskId with
  | none => rfl
  | some tid =>
    rw [getRelatedTaskIdsFuel_some, getRelatedTaskIdsFuel_some]
    by_cases h0 : tid = 0
    · rw [if_pos h0, if_pos h0]
    · rw [if_neg h0, if_neg h0]
      have hrf : 1 ≤ relFuel tasks := by
        unfold relFuel
        omega
      have hcard : ∀ rel : List Int,
          (idUniverse tasks \ rel.toFinset).card ≤ relFuel tasks - 1 := by
        intro rel
        have h1 : (idUniverse tasks \ rel.toFinset).card ≤ (idUniverse tasks).card :=
          Finset.card_le_card (Finset.sdiff_subset)
        have h2 := universe_card_lt_relFuel tasks
        omega
      have h1 : dfs (downNbrs tasks) fuel tid [tid] =
          dfs (downNbrs tasks) (relFuel tasks) tid [tid] :=
        dfs_stab (downNbrs tasks) (idUniverse tasks) (downNbrs_mem_universe tasks)
          (relFuel tasks - 1) fuel (relFuel tasks) tid [tid]
          (hcard [tid]) (by omega) (by omega)
      rw [h1]
      exact dfs_stab (upNbrs tasks) (idUniverse tasks) (upNbrs_mem_universe tasks)
        (relFuel tasks - 1) fuel (relFuel tasks) tid _
        (hcard _) (by omega) (by omega)

/-- C9 witness: extra fuel on the cyclic snapshot exC3 leaves the related
set of task 1 unchanged. -/
theorem C9_witness :
    getRelatedTaskIdsFuel exC3 (relFuel exC3 + 5) (some 1) =
      getRelatedTaskIds exC3 (some 1) :=
  C9_related_walk_fuel_stabilizes exC3 (relFuel exC3 + 5) (some 1)
    (Nat.le_add_right (relFuel exC3) 5)

/-! ### Symmetry of the related-ids computation -/

lemma findById_eq_of_nodup {tasks : List Task} {t : Task}
    (hnodup : uniqueIds tasks) (hmem : t ∈ tasks) :
    findById tasks t.id = some t :=
  find_eq_of_nodup hnodup hmem

lemma down_step_flip {tasks : List Task} (hnodup : uniqueIds tasks)
    {a b : Int} (h : NStep tasks a b) : UStep tasks b a := by
  unfold NStep downNbrs at h
  rcases List.mem_map.mp h with ⟨τ, hτ, rfl⟩
  unfold downstreamTasks at hτ
  rw [List.mem_filter] at hτ
  unfold UStep upNbrs
  rw [findById_eq_of_nodup hnodup hτ.1]
  simpa using hτ.2

lemma up_step_flip {tasks : List Task} {a b : Int} (h : UStep tasks a b) :
    NStep tasks b a := by
  unfold UStep upNbrs at h
  cases hf : findById tasks a with
  | none =>
    rw [hf] at h
    exact absurd h (List.not_mem_nil b)
  | some τ =>
    rw [hf] at h
    have hτmem : τ ∈ tasks := List.mem_of_find?_eq_some hf
    have hτid : τ.id = a := by
      have := List.find?_some hf
      simpa using this
    unfold NStep downNbrs
    rw [← hτid]
    exact List.mem_map_of_mem Task.id (mem_downstreamTasks hτmem h)

lemma transGen_down_to_up {tasks : List Task} (hnodup : uniqueIds tasks)
    {a b : Int} (h : Relation.TransGen (NStep tasks) a b) :
    Relation.TransGen (UStep tasks) b a := by
  induction h with
  | single h1 => exact Relation.TransGen.single (down_step_flip hnodup h1)
  | tail h1 h2 ih => exact Relation.TransGen.head (down_step_flip hnodup h2) ih

lemma transGen_up_to_down {tasks : List Task}
    {a b : Int} (h : Relation.TransGen (UStep tasks) a b) :
    Relation.TransGen (NStep tasks) b a := by
  induction h with
  | single h1 => exact Relation.TransGen.single (up_step_flip h1)
  | tail h1 h2 ih => exact Relation.TransGen.head (up_step_flip h2) ih

lemma nstep_target_ne_zero {tasks : List Task}
    (hids0 : ∀ t ∈ tasks, t.id ≠ 0) {a b : Int} (h : NStep tasks a b) :
    b ≠ 0 := by
  unfold NStep downNbrs at h
  rcases List.mem_map.mp h with ⟨τ, hτ, rfl⟩
  unfold downstreamTasks at hτ
  rw [List.mem_filter] at hτ
  exact hids0 τ hτ.1

lemma ustep_target_ne_zero {tasks : List Task}
    (hdeps0 : ∀ t ∈ tasks, ∀ d ∈ depIds t, d ≠ 0) {a b : Int}
    (h : UStep tasks a b) : b ≠ 0 := by
  unfold UStep upNbrs at h
  cases hf : findById tasks a with
  | none =>
    rw [hf] at h
    exact absurd h (List.not_mem_nil b)
  | some τ =>
    rw [hf] at h
    exact hdeps0 τ (List.mem_of_find?_eq_some hf) b h

lemma nchain_append (nbrs : Int → List Int) {c : Int} :
    ∀ {a b : Int} {l : List Int}, NChain nbrs a l → l.getLast? = some b →
      c ∈ nbrs b → NChain nbrs a (l ++ [c]) := by
  intro a b l hch
  induction hch with
  | nil a =>
    intro hlast _
    simp at hlast
  | cons a b' l' hb' hch' ih =>
    intro hlast hc
    cases hl' : l' with
    | nil =>
      subst hl'
      have hb : b' = b := by simpa using hlast
      subst hb
      exact NChain.cons a b' [c] hb' (NChain.cons b' c [] hc (NChain.nil c))
    | cons x xs =>
      subst hl'
      have hlast' : (x :: xs).getLast? = some b := by simpa using hlast
      exact NChain.cons a b' ((x :: xs) ++ [c]) hb' (ih hlast' hc)

lemma transGen_to_chain (nbrs : Int → List Int) {a b : Int}
    (h : Relation.TransGen (fun x y => y ∈ nbrs x) a b) :
    ∃ l : List Int, NChain nbrs a l ∧ l.getLast? = some b ∧
      ∀ x ∈ l, Relation.TransGen (fun x y => y ∈ nbrs x) a x ∧
        (x = b ∨ Relation.TransGen (fun x y => y ∈ nbrs x) x b) := by
  induction h with
  | single h1 =>
    refine ⟨[_], NChain.cons _ _ [] h1 (NChain.nil _), by simp, ?_⟩
    intro x hx
    rw [List.mem_singleton.mp hx]
    exact ⟨Relation.TransGen.single h1, Or.inl rfl⟩
  | tail h1 h2 ih =>
    obtain ⟨l, hch, hlast, hprop⟩ := ih
    refine ⟨l ++ [_], nchain_append nbrs hch hlast h2, by simp, ?_⟩
    intro x hx
    rcases List.mem_append.mp hx with hx' | hx'
    · refine ⟨(hprop x hx').1, ?_⟩
      rcases (hprop x hx').2 with rfl | htr
      · exact Or.inr (Relation.TransGen.single h2)
      · exact Or.inr (htr.tail h2)
    · rw [List.mem_singleton.mp hx']
      exact ⟨h1.tail h2, Or.inl rfl⟩

/-- C8.  Refutation of unconditional symmetry: the snapshot exC8 contains
a task with id 0; hovering task 1 highlights its dependency 0, but the
falsy guard makes the related set of task 0 empty, so 1 is not related to
0 although 0 is related to 1. -/
theorem C8_counterexample :
    (0 : Int) ∈ getRelatedTaskIds exC8 (some 1) ∧
    (1 : Int) ∉ getRelatedTaskIds exC8 (some 0) := by
  decide

/-- C8 (amended).  computeRelatedTaskIds is symmetric on snapshots whose
dependency graph is acyclic, whose task ids are distinct, and in which
neither a task id nor a dependency id is the falsy integer 0 (cyclic
graphs break symmetry because the upstream walk reuses the visited set of
the downstream walk, and an id of 0 breaks it through the falsy guard):
if B is in the related set of A then A is in the related set of B. -/
theorem C8_related_symmetric_on_acyclic (tasks : List Task)
    (hacyc : Acyclic tasks) (hnodup : uniqueIds tasks)
    (hids0 : ∀ t ∈ tasks, t.id ≠ 0)
    (hdeps0 : ∀ t ∈ tasks, ∀ d ∈ depIds t, d ≠ 0)
    (A B : Int) (hA : A ≠ 0)
    (hB : B ∈ getRelatedTaskIds tasks (some A)) :
    A ∈ getRelatedTaskIds tasks (some B) := by
  have hcard : ∀ rel : List Int,
      (idUniverse tasks \ rel.toFinset).card < relFuel tasks := by
    intro rel
    exact lt_of_le_of_lt
      (Finset.card_le_card (Finset.sdiff_subset))
      (universe_card_lt_relFuel tasks)
  unfold getRelatedTaskIds at hB
  rw [getRelatedTaskIdsFuel_some, if_neg hA] at hB
  rcases dfs_sound (upNbrs tasks) (relFuel tasks) A
      (dfs (downNbrs tasks) (relFuel tasks) A [A]) B hB with hBrel1 | hBup
  · rcases dfs_sound (downNbrs tasks) (relFuel tasks) A [A] B hBrel1
        with hBA | hBdown
    · -- B is the focus itself
      have hBA' : B = A := List.mem_singleton.mp hBA
      subst hBA'
      unfold getRelatedTaskIds
      rw [getRelatedTaskIdsFuel_some, if_neg hA]
      exact dfs_subset (upNbrs tasks) (relFuel tasks) B _
        (dfs_subset (downNbrs tasks) (relFuel tasks) B [B]
          (List.mem_singleton.mpr rfl))
    · -- B lies strictly downstream of A
      have hBdown' : Relation.TransGen (NStep tasks) A B := hBdown
      have hBne0 : B ≠ 0 := by
        cases hBdown' with
        | single h1 => exact nstep_target_ne_zero hids0 h1
        | tail h1 h2 => exact nstep_target_ne_zero hids0 h2
      have hup : Relation.TransGen (UStep tasks) B A :=
        transGen_down_to_up hnodup hBdown'
      obtain ⟨l, hch, hlast, hprop⟩ := transGen_to_chain (upNbrs tasks) hup
      have hAinl : A ∈ l := List.mem_of_mem_getLast? hlast
      unfold getRelatedTaskIds
      rw [getRelatedTaskIdsFuel_some, if_neg hBne0]
      refine dfs_complete (upNbrs tasks) (idUniverse tasks)
        (upNbrs_mem_universe tasks) (relFuel tasks) B
        (dfs (downNbrs tasks) (relFuel tasks) B [B]) (hcard _)
        B l hch (Or.inl rfl) ?_ A hAinl
      intro x hx hxrel
      rcases dfs_sound (downNbrs tasks) (relFuel tasks) B [B] x hxrel
          with hxB | hxdown
      · have hxB' : x = B := List.mem_singleton.mp hxB
        have h1 : Relation.TransGen (UStep tasks) B x := (hprop x hx).1
        rw [hxB'] at h1
        exact hacyc B (transGen_up_to_down h1)
      · have h1 : Relation.TransGen (UStep tasks) B x := (hprop x hx).1
        have h2 : Relation.TransGen (NStep tasks) x B := transGen_up_to_down h1
        have hxdown' : Relation.TransGen (NStep tasks) B x := hxdown
        exact hacyc B (hxdown'.trans h2)
  · -- B lies strictly upstream of A
    have hBup' : Relation.TransGen (UStep tasks) A B := hBup
    have hBne0 : B ≠ 0 := by
      cases hBup' with
      | single h1 => exact ustep_target_ne_zero hdeps0 h1
      | tail h1 h2 => exact ustep_target_ne_zero hdeps0 h2
    have hdown : Relation.TransGen (NStep tasks) B A := transGen_up_to_down hBup'
    obtain ⟨l, hch, hlast, hprop⟩ := transGen_to_chain (downNbrs tasks) hdown
    have hAinl : A ∈ l := List.mem_of_mem_getLast? hlast
    unfold getRelatedTaskIds
    rw [getRelatedTaskIdsFuel_some, if_neg hBne0]
    have h1 : A ∈ dfs (downNbrs tasks) (relFuel tasks) B [B] := by
      refine dfs_complete (downNbrs tasks) (idUniverse tasks)
        (downNbrs_mem_universe tasks) (relFuel tasks) B [B] (hcard _)
        B l hch (Or.inl rfl) ?_ A hAinl
      intro x hx hxB
      have hxB' : x = B := List.mem_singleton.mp hxB
      have h2 : Relation.TransGen (NStep tasks) B x := (hprop x hx).1
      rw [hxB'] at h2
      exact hacyc B h2
    exact dfs_subset (upNbrs tasks) (relFuel tasks) B _ h1

/-- C8 witness: the amended theorem applied to the acyclic snapshot
exChain with focus 1 and related task 3. -/
theorem C8_witness : (1 : Int) ∈ getRelatedTaskIds exChain (some 3) :=
  C8_related_symmetric_on_acyclic exChain
    (acyclic_of_increasing (by decide))
    (by unfold uniqueIds; decide)
    (by decide)
    (by decide)
    1 3 (by decide) (by decide)

end Codia
